import Mathlib

/-!
Verification of the ordered-tree utilities (`src/app/components/tree/utils.ts`)
and the linear undo/redo history hook (`useUndoRedo`) of the repository.

Modelling conventions:
* `UniqueIdentifier` (string or number, compared with `===`) is modelled as
  `String`; ids are opaque to the logic, only equality is used.
* Optional fields (`children?`, `disabled?`, `collapsible?`) are `Option`s;
  the field `data?: any` is opaque to every function modelled here and is
  elided.  Note `undefined` (`none`) and an empty array (`some []`) are
  distinct values, and JavaScript truthiness makes `[]` truthy, so the
  source's `if (node.children)` test is `children ≠ none`, not nonemptiness.
* Arrays are `List`s; a JS `Set` is a `List String` used only via membership.
* The source functions of `utils.ts` have optional parameters with defaults
  (`parentId = null`, `depth = 0`, `collapsedItems = new Set()`); the Lean
  model makes those parameters explicit and call sites pass the defaults.
* `moveNode` both returns a value and (for `indent`/`outdent`) mutates
  objects of the input forest in place; the model passes that state
  explicitly and returns the pair (returned value, input forest afterwards).
  The successful recursive return path of `findAndMoveNode` reads the
  variable `newNodes`, which is declared in a different block and is not in
  scope there (`utils.ts` line 121), so that path raises a ReferenceError;
  the model returns an `Except` error for it.
-/

inductive TreeNode : Type where
  | mk (id : String) (label : String) (children : Option (List TreeNode))
      (disabled : Option Bool) (collapsible : Option Bool)

@[simp] def TreeNode.id : TreeNode → String
  | ⟨i, _, _, _, _⟩ => i

@[simp] def TreeNode.label : TreeNode → String
  | ⟨_, l, _, _, _⟩ => l

@[simp] def TreeNode.children : TreeNode → Option (List TreeNode)
  | ⟨_, _, c, _, _⟩ => c

/-- The four values of the `direction` parameter of `moveNode`. -/
inductive MoveDirection : Type where
  | up | down | indent | outdent

/-- Total number of nodes of a forest (every node at every depth).
Not in the source; used to state counting properties. -/
def totalSize : List TreeNode → Nat
  | [] => 0
  | ⟨_, _, none, _, _⟩ :: rest => 1 + totalSize rest
  | ⟨_, _, some cs, _, _⟩ :: rest => 1 + totalSize cs + totalSize rest

/-- Number of nodes of the forest (at any depth) whose id is `i`.
Not in the source; used to state occurrence properties. -/
def countId (i : String) : List TreeNode → Nat
  | [] => 0
  | ⟨nid, _, none, _, _⟩ :: rest =>
    (if nid = i then 1 else 0) + countId i rest
  | ⟨nid, _, some cs, _, _⟩ :: rest =>
    (if nid = i then 1 else 0) + countId i cs + countId i rest

/-- All ids of the forest in depth-first pre-order.
Not in the source; used to state the id-uniqueness invariant. -/
def idsOf : List TreeNode → List String
  | [] => []
  | ⟨nid, _, none, _, _⟩ :: rest => nid :: idsOf rest
  | ⟨nid, _, some cs, _, _⟩ :: rest => nid :: (idsOf cs ++ idsOf rest)

/-- All nodes of the forest in depth-first pre-order (ignoring collapse).
Not in the source; used to relate flattened entries to source nodes. -/
def sourceNodes : List TreeNode → List TreeNode
  | [] => []
  | ⟨nid, nl, none, nd, nc⟩ :: rest =>
    ⟨nid, nl, none, nd, nc⟩ :: sourceNodes rest
  | ⟨nid, nl, some cs, nd, nc⟩ :: rest =>
    ⟨nid, nl, some cs, nd, nc⟩ :: (sourceNodes cs ++ sourceNodes rest)

/-- Total size of the maximal subtrees of the forest rooted at nodes whose
id is `i`: a matching node contributes its whole subtree (itself and all
its descendants, whatever their ids) and is not searched further; a
non-matching node contributes whatever matches inside its children.
Not in the source; states how many nodes a subtree-dropping removal of
`i` takes away. -/
def droppedSize (i : String) : List TreeNode → Nat
  | [] => 0
  | ⟨nid, _, none, _, _⟩ :: rest =>
    (if nid = i then 1 else 0) + droppedSize i rest
  | ⟨nid, _, some cs, _, _⟩ :: rest =>
    (if nid = i then 1 + totalSize cs else droppedSize i cs)
      + droppedSize i rest

/-- The pre-order ids of the forest after pruning, at every depth, each
maximal subtree rooted at a node whose id is `i`: a matching node is
skipped together with all ids below it; a non-matching node keeps its id
and is pruned recursively.  Not in the source; states which nodes a
subtree-dropping removal of `i` leaves behind. -/
def keptIds (i : String) : List TreeNode → List String
  | [] => []
  | ⟨nid, _, none, _, _⟩ :: rest =>
    (if nid = i then [] else [nid]) ++ keptIds i rest
  | ⟨nid, _, some cs, _, _⟩ :: rest =>
    (if nid = i then [] else nid :: keptIds i cs) ++ keptIds i rest

/-- `findNodeById` of `utils.ts`: first match in depth-first pre-order,
searching a node's whole subtree before its later siblings. -/
def findNodeById : List TreeNode → String → Option TreeNode
  | [], _ => none
  | ⟨nid, nl, none, nd, nc⟩ :: rest, i =>
    if nid = i then some ⟨nid, nl, none, nd, nc⟩ else findNodeById rest i
  | ⟨nid, nl, some cs, nd, nc⟩ :: rest, i =>
    if nid = i then some ⟨nid, nl, some cs, nd, nc⟩
    else match findNodeById cs i with
      | some found => some found
      | none => findNodeById rest i

/-- `removeNodeById` of `utils.ts`: drops every node whose id matches
(together with its whole subtree) and shallow-copies every kept node,
recursing into its children when the `children` field is present. -/
def removeNodeById : List TreeNode → String → List TreeNode
  | [], _ => []
  | ⟨nid, nl, none, nd, nc⟩ :: rest, i =>
    if nid = i then removeNodeById rest i
    else ⟨nid, nl, none, nd, nc⟩ :: removeNodeById rest i
  | ⟨nid, nl, some cs, nd, nc⟩ :: rest, i =>
    if nid = i then removeNodeById rest i
    else ⟨nid, nl, some (removeNodeById cs i), nd, nc⟩ :: removeNodeById rest i

/-- `FlattenedTreeNode` of `types.ts`: the spread of the source node plus
`parentId`, `depth`, `index`, `collapsed` (always set by `flattenTree`). -/
structure FlattenedTreeNode : Type where
  id : String
  label : String
  children : Option (List TreeNode)
  disabled : Option Bool
  collapsible : Option Bool
  parentId : Option String
  depth : Nat
  index : Nat
  collapsed : Bool

/-- The `TreeNode` data carried by a flattened entry (the fields the spread
`...item` copied from the source node). -/
def FlattenedTreeNode.toTreeNode (e : FlattenedTreeNode) : TreeNode :=
  ⟨e.id, e.label, e.children, e.disabled, e.collapsible⟩

/-- The `reduce` loop of `flattenTree`, with the reduce index made explicit:
emit the entry, then the flattening of the children when they exist, are
nonempty and the node is not collapsed, then the rest of the siblings. -/
def flattenTreeGo (collapsedItems : List String) :
    List TreeNode → Option String → Nat → Nat → List FlattenedTreeNode
  | [], _, _, _ => []
  | ⟨nid, nl, nch, nd, nc⟩ :: rest, parentId, depth, index =>
    (⟨nid, nl, nch, nd, nc, parentId, depth, index,
      collapsedItems.contains nid⟩ : FlattenedTreeNode) ::
      ((match nch with
        | some cs =>
          if cs.length > 0 && !(collapsedItems.contains nid) then
            flattenTreeGo collapsedItems cs (some nid) (depth + 1) 0
          else []
        | none => []) ++
        flattenTreeGo collapsedItems rest parentId depth (index + 1))

/-- `flattenTree` of `utils.ts`. -/
def flattenTree (items : List TreeNode) (parentId : Option String)
    (depth : Nat) (collapsedItems : List String) : List FlattenedTreeNode :=
  flattenTreeGo collapsedItems items parentId depth 0

/-- Follows the spec's words (§4.1 `flatten`): depth-first pre-order, a
node's children included unless the node's own id is in the collapsed set;
each entry carries depth, sibling index, parentId and its own collapsed
flag.  Stated independently of the source to compare with `flattenTree`. -/
def flattenSpecGo (collapsedIds : List String) :
    List TreeNode → Option String → Nat → Nat → List FlattenedTreeNode
  | [], _, _, _ => []
  | ⟨nid, nl, none, nd, nc⟩ :: rest, parentId, depth, index =>
    (⟨nid, nl, none, nd, nc, parentId, depth, index,
      collapsedIds.contains nid⟩ : FlattenedTreeNode) ::
      flattenSpecGo collapsedIds rest parentId depth (index + 1)
  | ⟨nid, nl, some cs, nd, nc⟩ :: rest, parentId, depth, index =>
    (⟨nid, nl, some cs, nd, nc, parentId, depth, index,
      collapsedIds.contains nid⟩ : FlattenedTreeNode) ::
      ((if collapsedIds.contains nid then []
        else flattenSpecGo collapsedIds cs (some nid) (depth + 1) 0) ++
        flattenSpecGo collapsedIds rest parentId depth (index + 1))

/-- The spec-side flatten: `flatten(tree, collapsedIds)`. -/
def flattenSpec (items : List TreeNode) (collapsedIds : List String) :
    List FlattenedTreeNode :=
  flattenSpecGo collapsedIds items none 0 0

/-- Number of nodes reachable under the collapse rule (a node always counts
itself; its descendants are hidden when its id is collapsed).
Follows the spec's words; used to state the length property. -/
def reachableCount (collapsedIds : List String) : List TreeNode → Nat
  | [] => 0
  | ⟨_, _, none, _, _⟩ :: rest => 1 + reachableCount collapsedIds rest
  | ⟨nid, _, some cs, _, _⟩ :: rest =>
    1 + (if collapsedIds.contains nid then 0 else reachableCount collapsedIds cs)
      + reachableCount collapsedIds rest

/-- `moveNodeInArray` of `utils.ts`: copy the array, splice the element out
at `fromIndex` and splice it back in at `toIndex`.  `moveNode` only calls it
with `fromIndex` in range; the out-of-range branch is unreachable there. -/
def moveNodeInArray (array : List α) (fromIndex toIndex : Nat) : List α :=
  match array.get? fromIndex with
  | none => array
  | some movedItem =>
    let result := array.eraseIdx fromIndex
    result.take toIndex ++ movedItem :: result.drop toIndex

/-- `list.splice(i, 0, a)`: insert `a` at position `i` (clamped to the
length, as splice does). -/
def insertAt (i : Nat) (a : α) (l : List α) : List α :=
  l.take i ++ a :: l.drop i

/-- The in-place mutation of `prevNode` in the `indent` case of
`findAndMoveNode`: the element at `i - 1` gets `child` pushed onto its
children (created as `[]` first when the field is absent, since
`!prevNode.children` is true only for `undefined`, not for `[]`).  The
loop only executes it with `i - 1` in range; the out-of-range branch is
unreachable there. -/
def indentInto (full : List TreeNode) (i : Nat) (child : TreeNode) :
    List TreeNode :=
  match full.get? (i - 1) with
  | some ⟨pid, pl, pch, pd, pc⟩ =>
    full.set (i - 1) ⟨pid, pl, some (pch.getD [] ++ [child]), pd, pc⟩
  | none => full

/-- Outcome of one frame of `findAndMoveNode`:
* `ok nodes moved listAfter outdentReq` — the frame returned normally;
  `nodes`/`moved` are the returned record, `listAfter` is the value of the
  frame's `nodeList` after the call (its objects may have been mutated),
  and `outdentReq = some n` records that the frame executed the `outdent`
  splice into its `parentList`, i.e. the caller must insert `n` into its
  own list right after the element it recursed into.
* `thrown listAfter` — a ReferenceError (the out-of-scope `newNodes` at
  `utils.ts` line 121) escaped the frame, after the mutations recorded in
  `listAfter` had already been applied. -/
inductive FMOut : Type where
  | ok (nodes : List TreeNode) (moved : Bool) (listAfter : List TreeNode)
      (outdentReq : Option TreeNode)
  | thrown (listAfter : List TreeNode)

/-- The `for` loop of `findAndMoveNode` in `moveNode` of `utils.ts`.
`rem` is the part of the frame's `nodeList` not yet visited, `i` the loop
index, `full` the whole `nodeList` (a frame starts with `rem = full`,
`i = 0`), `hasParent` whether a `parentList` was passed.

The `outdent` case computes `parentIndex` with `findIndex` on reference
identity (`p.children === nodeList`); under the forest no-aliasing
invariant that is exactly the index the caller is iterating at, so the
splice into `parentList` is reported to the caller as `outdentReq` and the
caller inserts right after its current element.  Iterations that do not
move never mutate, so `full` stays the frame's current list throughout. -/
def findAndMoveNode (nodeId : String) (direction : MoveDirection) :
    List TreeNode → Nat → List TreeNode → Bool → FMOut
  | [], _, full, _ => .ok full false full none
  | ⟨nid, nl, nch, nd, nc⟩ :: rest, i, full, hasParent =>
    if nid = nodeId then
      -- const newNodes = [...nodeList] : a value-equal copy of `full`
      match direction with
      | .up =>
        if 0 < i then .ok (moveNodeInArray full i (i - 1)) true full none
        else .ok full false full none
      | .down =>
        if i < full.length - 1 then
          .ok (moveNodeInArray full i (i + 1)) true full none
        else .ok full false full none
      | .indent =>
        if 0 < i then
          -- prevNode is the same object in the copy and in the input
          -- list: pushing onto its children mutates the input forest
          .ok ((indentInto full i ⟨nid, nl, nch, nd, nc⟩).eraseIdx i) true
            (indentInto full i ⟨nid, nl, nch, nd, nc⟩) none
        else .ok full false full none
      | .outdent =>
        if hasParent then .ok (full.eraseIdx i) true full
          (some ⟨nid, nl, nch, nd, nc⟩)
        else .ok full false full none
    else
      match nch with
      | none => findAndMoveNode nodeId direction rest (i + 1) full hasParent
      | some cs =>
        match findAndMoveNode nodeId direction cs 0 cs true with
        | .thrown csAfter =>
          .thrown (full.set i ⟨nid, nl, some csAfter, nd, nc⟩)
        | .ok _ true csAfter req =>
          -- the recursion reports a move; this frame then evaluates the
          -- out-of-scope `newNodes` and raises a ReferenceError, after the
          -- mutations of the child frame (and an outdent splice into this
          -- very list, when requested) have taken effect
          let base := full.set i ⟨nid, nl, some csAfter, nd, nc⟩
          .thrown (match req with
            | some n => insertAt (i + 1) n base
            | none => base)
        | .ok _ false _ _ =>
          findAndMoveNode nodeId direction rest (i + 1) full hasParent

/-- `moveNode` of `utils.ts`.  Returns the pair of the call's outcome
(`Except.error ()` models the ReferenceError raised on the successful
recursive return path) and the value of the input forest after the call
(`indent`/`outdent` mutate it through aliased objects). -/
def moveNode (nodes : List TreeNode) (nodeId : String)
    (direction : MoveDirection) :
    Except Unit (List TreeNode) × List TreeNode :=
  match findAndMoveNode nodeId direction nodes 0 nodes false with
  | .ok ns _ after _ => (.ok ns, after)
  | .thrown after => (.error (), after)

/-- The state triple of the `useUndoRedo<T>` hook (`past`, `present`,
`future` of the React state). -/
structure History (T : Type) : Type where
  past : List T
  present : T
  future : List T

/-- `commit(next)`: push `present` onto `past`, set `present = next`,
clear `future`. -/
def History.commit (h : History T) (next : T) : History T :=
  ⟨h.past ++ [h.present], next, []⟩

/-- `sync(next)`: replace `present` without touching history. -/
def History.sync (h : History T) (next : T) : History T :=
  ⟨h.past, next, h.future⟩

/-- `undo()`: when `past` is empty (the `p.length === 0` guard, i.e.
`getLast? = none`) a no-op returning `undefined` (modelled `none`);
otherwise move the last entry of `past` to `present`, push the old
`present` onto the front of `future`, and return the new `present`. -/
def History.undo (h : History T) : Option T × History T :=
  match h.past.getLast? with
  | none => (none, h)
  | some prev => (some prev, ⟨h.past.dropLast, prev, h.present :: h.future⟩)

/-- `redo()`: when `future` is empty a no-op returning `undefined`;
otherwise move the first entry of `future` to `present`, push the old
`present` onto the end of `past`, and return the new `present`. -/
def History.redo (h : History T) : Option T × History T :=
  match h.future with
  | [] => (none, h)
  | next :: rest => (some next, ⟨h.past ++ [h.present], next, rest⟩)

/-- `reset(val)`: clear both lists, set `present = val`, return it. -/
def History.reset (_h : History T) (val : T) : Option T × History T :=
  (some val, ⟨[], val, []⟩)

/-- `canUndo`: `past.length > 0`. -/
def History.canUndo (h : History T) : Bool := h.past.length > 0

/-- `canRedo`: `future.length > 0`. -/
def History.canRedo (h : History T) : Bool := h.future.length > 0

/-! Concrete inputs used by counterexamples, bug evaluations and witnesses. -/

/-- The leaf node with id "1-1" and label "A1" of the spec's concrete
scenario. -/
def nodeA1 : TreeNode := ⟨"1-1", "A1", none, none, none⟩

/-- The two-root forest of the spec's concrete scenario:
node 1 (label A, one child 1-1) and node 2 (label B). -/
def exForest : List TreeNode :=
  [⟨"1", "A", some [nodeA1], none, none⟩, ⟨"2", "B", none, none, none⟩]

/-- A one-root forest whose root "a" has the two leaf children "b", "c". -/
def exNested : List TreeNode :=
  [⟨"a", "A", some [⟨"b", "B", none, none, none⟩,
    ⟨"c", "C", none, none, none⟩], none, none⟩]

/-- Two top-level leaves "a" and "b". -/
def exPair : List TreeNode :=
  [⟨"a", "A", none, none, none⟩, ⟨"b", "B", none, none, none⟩]

/-- A root "a" with a single leaf child "b", next to a root "c". -/
def exRemove : List TreeNode :=
  [⟨"a", "A", some [⟨"b", "B", none, none, none⟩], none, none⟩,
    ⟨"c", "C", none, none, none⟩]

/-! ## Claim theorems: LinearHistory (useUndoRedo) -/

/-- C6: after commit(v1) then commit(v2), undo() returns v1, and a further
undo() returns the value present before v1 was committed; concretely, from
present 0 with empty past and future, commit(1), commit(2), undo() returns
1 leaving past [0] and future [2], undo() returns 0 leaving past empty and
future [1, 2], and a third undo() is the no-op signal with the state
unchanged. -/
theorem history_commit_commit_undo (T : Type) (h : History T) (v1 v2 : T) :
    ((h.commit v1).commit v2).undo =
      (some v1, ⟨h.past ++ [h.present], v1, [v2]⟩) ∧
    ((((h.commit v1).commit v2).undo).2).undo =
      (some h.present, ⟨h.past, h.present, [v1, v2]⟩) ∧
    ((((⟨[], 0, []⟩ : History Nat).commit 1).commit 2).undo)
      = (some 1, ⟨[0], 1, [2]⟩) ∧
    (⟨[0], 1, [2]⟩ : History Nat).undo = (some 0, ⟨[], 0, [1, 2]⟩) ∧
    (⟨[], 0, [1, 2]⟩ : History Nat).undo = (none, ⟨[], 0, [1, 2]⟩) := by
  refine ⟨?_, ?_, ?_, ?_, ?_⟩ <;> simp [History.commit, History.undo]

/-- C7: when a redo is available (future nonempty), commit(x) clears the
future entirely, so the subsequent redo() is the no-op signal and leaves
the state triple unchanged. -/
theorem history_commit_clears_future (T : Type) (h : History T) (x : T)
    (_hfut : h.future ≠ []) :
    (h.commit x).future = [] ∧ (h.commit x).redo = (none, h.commit x) := by
  exact ⟨rfl, by simp [History.commit, History.redo]⟩

theorem history_commit_clears_future_witness :
    ((⟨[], 0, [5]⟩ : History Nat).future ≠ []) ∧
    (((⟨[], 0, [5]⟩ : History Nat).commit 7).future = [] ∧
      ((⟨[], 0, [5]⟩ : History Nat).commit 7).redo =
        (none, (⟨[], 0, [5]⟩ : History Nat).commit 7)) :=
  ⟨by decide, history_commit_clears_future Nat ⟨[], 0, [5]⟩ 7 (by decide)⟩

/-- C8: with a nonempty past, undo() followed by redo() restores present to
exactly the value held immediately before the undo, and redo() returns that
value. -/
theorem history_undo_redo_identity (T : Type) (h : History T)
    (hp : h.past ≠ []) :
    (h.undo.2).redo.1 = some h.present ∧
    ((h.undo.2).redo.2).present = h.present := by
  rcases hq : h.past.getLast? with _ | prev
  · exact absurd (List.getLast?_eq_none_iff.mp hq) hp
  · simp [History.undo, hq, History.redo]

theorem history_undo_redo_identity_witness :
    ((⟨[3], 7, []⟩ : History Nat).past ≠ []) ∧
    (((⟨[3], 7, []⟩ : History Nat).undo.2).redo.1 = some 7 ∧
      (((⟨[3], 7, []⟩ : History Nat).undo.2).redo.2).present = 7) :=
  ⟨by decide, history_undo_redo_identity Nat ⟨[3], 7, []⟩ (by decide)⟩

/-! ## Flatten: refinement against the spec description -/

lemma flattenTreeGo_eq_flattenSpecGo (C : List String) (rem : List TreeNode)
    (pid : Option String) (d idx : Nat) :
    flattenTreeGo C rem pid d idx = flattenSpecGo C rem pid d idx := by
  induction rem, pid, d, idx using flattenTreeGo.induct C with
  | case1 pid d idx => simp [flattenTreeGo, flattenSpecGo]
  | case2 nid nl nch nd nc rest pid d idx ihc ihr =>
    match nch with
    | none => simp [flattenTreeGo, flattenSpecGo, ihr]
    | some cs =>
      by_cases hc : nid ∈ C
      · simp [flattenTreeGo, flattenSpecGo, hc, ihr]
      · match cs with
        | [] => simp [flattenTreeGo, flattenSpecGo, hc, ihr]
        | c0 :: cs0 => simp [flattenTreeGo, flattenSpecGo, hc, ihr, ihc]

lemma flattenSpecGo_length (C : List String) (rem : List TreeNode)
    (pid : Option String) (d idx : Nat) :
    (flattenSpecGo C rem pid d idx).length = reachableCount C rem := by
  induction rem, pid, d, idx using flattenSpecGo.induct C with
  | case1 pid d idx => simp [flattenSpecGo, reachableCount]
  | case2 nid nl nd nc rest pid d idx ihr =>
    simp [flattenSpecGo, reachableCount, ihr]; omega
  | case3 nid nl cs nd nc rest pid d idx ihc ihr =>
    by_cases hc : nid ∈ C
    · simp [flattenSpecGo, reachableCount, hc, ihr]; omega
    · simp [flattenSpecGo, reachableCount, hc, ihr, ihc]; omega

lemma flattenTreeGo_sublist (C : List String) (rem : List TreeNode)
    (pid : Option String) (d idx : Nat) :
    ((flattenTreeGo C rem pid d idx).map FlattenedTreeNode.toTreeNode).Sublist
      (sourceNodes rem) := by
  induction rem, pid, d, idx using flattenTreeGo.induct C with
  | case1 pid d idx => simp [flattenTreeGo, sourceNodes]
  | case2 nid nl nch nd nc rest pid d idx ihc ihr =>
    match nch with
    | none =>
      simp only [flattenTreeGo, sourceNodes, List.map_cons, List.nil_append]
      exact List.Sublist.cons₂ _ ihr
    | some cs =>
      simp only [flattenTreeGo, sourceNodes, List.map_cons, List.map_append]
      refine List.Sublist.cons₂ _ ?_
      by_cases hc : nid ∈ C
      · simpa [hc, FlattenedTreeNode.toTreeNode]
          using List.Sublist.append (List.nil_sublist (sourceNodes cs)) ihr
      · match cs with
        | [] =>
          simpa [hc, FlattenedTreeNode.toTreeNode]
            using List.Sublist.append (List.nil_sublist (sourceNodes [])) ihr
        | c0 :: cs0 =>
          simpa [hc, FlattenedTreeNode.toTreeNode]
            using List.Sublist.append ihc ihr

/-- C4: flattenTree returns exactly the depth-first pre-order traversal in
which a node's children are omitted iff the node's own id is collapsed
(the node itself is always emitted), every entry carrying depth (0 for
roots, parent plus one otherwise), index among its immediate siblings,
parentId (the none sentinel for roots) and collapsed (its own id in the
set, independent of ancestors); hence the output length equals the count
of reachable nodes, and the empty forest flattens to the empty list. -/
theorem flattenTree_matches_spec (F : List TreeNode) (C : List String) :
    flattenTree F none 0 C = flattenSpec F C ∧
    (flattenTree F none 0 C).length = reachableCount C F ∧
    flattenTree [] none 0 C = ([] : List FlattenedTreeNode) := by
  refine ⟨flattenTreeGo_eq_flattenSpecGo C F none 0 0, ?_, ?_⟩
  · rw [show flattenTree F none 0 C = flattenSpecGo C F none 0 0 from
      flattenTreeGo_eq_flattenSpecGo C F none 0 0]
    exact flattenSpecGo_length C F none 0 0
  · simp [flattenTree, flattenTreeGo]

/-- C10: every entry emitted by flattenTree retains all fields of its
source node via the spread, including the original children sequence — the
emitted entries, projected back to their TreeNode data, form a sublist of
the pre-order list of all source nodes, so a collapsed node's entry still
carries its full hidden subtree in its children field. -/
theorem flattenTree_entries_keep_source_fields (F : List TreeNode)
    (C : List String) :
    ((flattenTree F none 0 C).map FlattenedTreeNode.toTreeNode).Sublist
      (sourceNodes F) :=
  flattenTreeGo_sublist C F none 0 0

/-! ## Removal: occurrence and size lemmas -/

lemma removeNodeById_of_countId_zero (i : String) (F : List TreeNode)
    (h : countId i F = 0) : removeNodeById F i = F := by
  induction F using countId.induct i with
  | case1 => simp [removeNodeById]
  | case2 nid nl nd nc rest ihr =>
    by_cases hn : nid = i
    · simp [countId, hn] at h
    · simp [countId, hn] at h
      simp [removeNodeById, hn, ihr h]
  | case3 nid nl cs nd nc rest ihc ihr =>
    by_cases hn : nid = i
    · simp [countId, hn] at h
    · simp [countId, hn] at h
      simp [removeNodeById, hn, ihc h.1, ihr h.2]

lemma countId_removeNodeById (i : String) (F : List TreeNode) :
    countId i (removeNodeById F i) = 0 := by
  induction F using countId.induct i with
  | case1 => simp [removeNodeById, countId]
  | case2 nid nl nd nc rest ihr =>
    by_cases hn : nid = i
    · simp [removeNodeById, hn, ihr]
    · simp [removeNodeById, hn, countId, ihr]
  | case3 nid nl cs nd nc rest ihc ihr =>
    by_cases hn : nid = i
    · simp [removeNodeById, hn, ihr]
    · simp [removeNodeById, hn, countId, ihc, ihr]

lemma findNodeById_eq_none_iff (i : String) (F : List TreeNode) :
    findNodeById F i = none ↔ countId i F = 0 := by
  induction F using countId.induct i with
  | case1 => simp [findNodeById, countId]
  | case2 nid nl nd nc rest ihr =>
    by_cases hn : nid = i
    · simp [findNodeById, countId, hn]
    · simp [findNodeById, countId, hn, ihr]
  | case3 nid nl cs nd nc rest ihc ihr =>
    by_cases hn : nid = i
    · simp [findNodeById, countId, hn]
    · rcases hcs : findNodeById cs i with _ | f
      · have hc0 : countId i cs = 0 := ihc.mp hcs
        simp [findNodeById, countId, hn, hcs, ihr, hc0]
      · have hc0 : countId i cs ≠ 0 := by
          intro h0
          rw [ihc.mpr h0] at hcs
          exact Option.noConfusion hcs
        simp [findNodeById, countId, hn, hcs]
        omega

lemma removeNodeById_size (i : String) (F : List TreeNode) :
    ∀ n, countId i F = 1 → findNodeById F i = some n →
      totalSize (removeNodeById F i) + totalSize [n] = totalSize F := by
  induction F using countId.induct i with
  | case1 => intro n h1 hf; simp [findNodeById] at hf
  | case2 nid nl nd nc rest ihr =>
    intro n h1 hf
    by_cases hn : nid = i
    · subst hn
      simp [findNodeById] at hf
      simp [countId] at h1
      simp only [removeNodeById, if_pos rfl]
      rw [removeNodeById_of_countId_zero nid rest h1, ← hf]
      simp [totalSize]
      omega
    · simp [findNodeById, hn] at hf
      simp [countId, hn] at h1
      have hih := ihr n h1 hf
      simp only [removeNodeById, if_neg hn]
      simp [totalSize]
      omega
  | case3 nid nl cs nd nc rest ihc ihr =>
    intro n h1 hf
    by_cases hn : nid = i
    · subst hn
      simp [findNodeById] at hf
      simp [countId] at h1
      have hr0 : countId nid rest = 0 := by omega
      simp only [removeNodeById, if_pos rfl]
      rw [removeNodeById_of_countId_zero nid rest hr0, ← hf]
      simp [totalSize]
      omega
    · simp [countId, hn] at h1
      rcases hcs : findNodeById cs i with _ | f
      · have hc0 : countId i cs = 0 := (findNodeById_eq_none_iff i cs).mp hcs
        simp [findNodeById, hn, hcs] at hf
        have hr1 : countId i rest = 1 := by omega
        have hih := ihr n hr1 hf
        simp only [removeNodeById, if_neg hn]
        rw [removeNodeById_of_countId_zero i cs hc0]
        simp [totalSize]
        omega
      · have hcne : countId i cs ≠ 0 := by
          intro h0
          rw [(findNodeById_eq_none_iff i cs).mpr h0] at hcs
          exact Option.noConfusion hcs
        have hc1 : countId i cs = 1 := by omega
        have hr0 : countId i rest = 0 := by omega
        simp [findNodeById, hn, hcs] at hf
        subst hf
        have hih := ihc f hc1 hcs
        simp only [removeNodeById, if_neg hn]
        rw [removeNodeById_of_countId_zero i rest hr0]
        simp [totalSize]
        omega

lemma countId_eq_count (i : String) (F : List TreeNode) :
    countId i F = (idsOf F).count i := by
  induction F using countId.induct i with
  | case1 => simp [countId, idsOf]
  | case2 nid nl nd nc rest ihr =>
    by_cases hn : nid = i
    · simp [countId, idsOf, List.count_cons, hn, ihr]
      omega
    · simp [countId, idsOf, List.count_cons, hn, ihr]
  | case3 nid nl cs nd nc rest ihc ihr =>
    by_cases hn : nid = i
    · simp [countId, idsOf, List.count_cons, List.count_append, hn, ihc, ihr]
      omega
    · simp [countId, idsOf, List.count_cons, List.count_append, hn, ihc, ihr]

/-- The one-root forest: node "a" (label A) with the single leaf child
"b" (label B).  Its total node count is 2. -/
def exDeep : List TreeNode :=
  [⟨"a", "A", some [⟨"b", "B", none, none, none⟩], none, none⟩]

/-! ## Claim theorems: removal -/

/-- C5 counterexample: on the forest with unique ids whose root "a" has
the child "b", removing the present id "a" drops the whole two-node
subtree, so the node count of the result (0) is not one less than the
input's (2): the claim's count clause is false as stated. -/
theorem removeNodeById_count_counterexample :
    (idsOf exDeep).Nodup ∧
    findNodeById exDeep "a" =
      some ⟨"a", "A", some [⟨"b", "B", none, none, none⟩], none, none⟩ ∧
    totalSize (removeNodeById exDeep "a") ≠ totalSize exDeep - 1 := by
  refine ⟨?_, ?_, ?_⟩ <;>
    simp [exDeep, idsOf, findNodeById, removeNodeById, totalSize]

/-- C5 (amended): for a forest with unique ids, removing a present id
yields a forest where the id is no longer found and whose node count
drops by exactly the size of the removed node's subtree (one when it is a
leaf, as in the witness); removing an absent id returns the forest
unchanged in value, with no error. -/
theorem removeNodeById_remove_found (F : List TreeNode) (i : String)
    (hnd : (idsOf F).Nodup) :
    (∀ n, findNodeById F i = some n →
      findNodeById (removeNodeById F i) i = none ∧
      totalSize (removeNodeById F i) + totalSize [n] = totalSize F) ∧
    (findNodeById F i = none → removeNodeById F i = F) := by
  constructor
  · intro n hf
    have hle : countId i F ≤ 1 := by
      rw [countId_eq_count]
      exact List.nodup_iff_count_le_one.mp hnd i
    have hne : countId i F ≠ 0 := by
      intro h0
      rw [(findNodeById_eq_none_iff i F).mpr h0] at hf
      exact Option.noConfusion hf
    have h1 : countId i F = 1 := by omega
    exact ⟨(findNodeById_eq_none_iff i _).mpr (countId_removeNodeById i F),
      removeNodeById_size i F n h1 hf⟩
  · intro h0
    exact removeNodeById_of_countId_zero i F
      ((findNodeById_eq_none_iff i F).mp h0)

theorem removeNodeById_remove_found_witness :
    (idsOf exRemove).Nodup ∧
    (findNodeById (removeNodeById exRemove "b") "b" = none ∧
      totalSize (removeNodeById exRemove "b") +
        totalSize [⟨"b", "B", none, none, none⟩] = totalSize exRemove) := by
  have hnd : (idsOf exRemove).Nodup := by simp [exRemove, idsOf]
  have hf : findNodeById exRemove "b" = some ⟨"b", "B", none, none, none⟩ := by
    simp [exRemove, findNodeById]
  exact ⟨hnd, (removeNodeById_remove_found exRemove "b" hnd).1 _ hf⟩

lemma totalSize_removeNodeById_add_droppedSize (i : String)
    (F : List TreeNode) :
    totalSize (removeNodeById F i) + droppedSize i F = totalSize F := by
  induction F using countId.induct i with
  | case1 => simp [removeNodeById, droppedSize, totalSize]
  | case2 nid nl nd nc rest ihr =>
    by_cases hn : nid = i
    · simp [removeNodeById, droppedSize, totalSize, hn]
      omega
    · simp [removeNodeById, droppedSize, totalSize, hn]
      omega
  | case3 nid nl cs nd nc rest ihc ihr =>
    by_cases hn : nid = i
    · simp [removeNodeById, droppedSize, totalSize, hn]
      omega
    · simp [removeNodeById, droppedSize, totalSize, hn]
      omega

lemma idsOf_removeNodeById (i : String) (F : List TreeNode) :
    idsOf (removeNodeById F i) = keptIds i F := by
  induction F using countId.induct i with
  | case1 => simp [removeNodeById, idsOf, keptIds]
  | case2 nid nl nd nc rest ihr =>
    by_cases hn : nid = i
    · simp [removeNodeById, idsOf, keptIds, hn, ihr]
    · simp [removeNodeById, idsOf, keptIds, hn, ihr]
  | case3 nid nl cs nd nc rest ihc ihr =>
    by_cases hn : nid = i
    · simp [removeNodeById, idsOf, keptIds, hn, ihr]
    · simp [removeNodeById, idsOf, keptIds, hn, ihc, ihr]

/-- C9: in one call, removeNodeById removes every node whose id matches,
at every depth and even when several nodes share the id, and the entire
subtree under each removed node is dropped with it: the result contains
no occurrence of the id and a lookup of it fails; the node count drops by
exactly the summed sizes of the maximal matching subtrees (each removed
node counted together with all its descendants); and the surviving
pre-order ids are exactly the original pre-order ids with every matching
node's whole subtree pruned — so no descendant of a removed node is
promoted or kept. -/
theorem removeNodeById_removes_every_occurrence (F : List TreeNode)
    (i : String) :
    countId i (removeNodeById F i) = 0 ∧
    findNodeById (removeNodeById F i) i = none ∧
    totalSize (removeNodeById F i) + droppedSize i F = totalSize F ∧
    idsOf (removeNodeById F i) = keptIds i F :=
  ⟨countId_removeNodeById i F,
    (findNodeById_eq_none_iff i _).mpr (countId_removeNodeById i F),
    totalSize_removeNodeById_add_droppedSize i F,
    idsOf_removeNodeById i F⟩

/-! ## moveNode: frame behaviour and concrete evaluations -/

lemma set_get_self : ∀ (l : List α) (i : Nat) (a : α),
    l.get? i = some a → l.set i a = l
  | [], _, _, h => by simp at h
  | b :: t, 0, a, h => by simp_all
  | b :: t, i + 1, a, h => by
    simp only [List.get?_cons_succ] at h
    simp [List.set, set_get_self t i a h]

/-- For directions up and down, no frame of findAndMoveNode ever mutates:
the after-state of the frame's list is the list itself, and no outdent
splice into the parent list is requested.  The hypothesis is the loop
invariant (the unvisited part is the corresponding suffix of the list). -/
lemma findAndMoveNode_updown_after (nodeId : String) (d : MoveDirection)
    (hd : d = MoveDirection.up ∨ d = MoveDirection.down) :
    ∀ (rem : List TreeNode) (i : Nat) (full : List TreeNode) (hp : Bool),
      rem = full.drop i →
      (match findAndMoveNode nodeId d rem i full hp with
       | .ok _ _ after req => after = full ∧ req = none
       | .thrown after => after = full) := by
  intro rem i full hp
  induction rem, i, full, hp using findAndMoveNode.induct nodeId d with
  | case1 i full hp =>
    intro _
    rw [findAndMoveNode.eq_def]
    simp
  | case2 nl nch nd nc rest i full hp hdir hi =>
    intro _
    rw [findAndMoveNode.eq_def]
    simp [hdir, hi]
  | case3 nl nch nd nc rest i full hp hdir hi =>
    intro _
    rw [findAndMoveNode.eq_def]
    simp [hdir, hi]
  | case4 nl nch nd nc rest i full hp hdir hi =>
    intro _
    rw [findAndMoveNode.eq_def]
    simp [hdir, hi]
  | case5 nl nch nd nc rest i full hp hdir hi =>
    intro _
    rw [findAndMoveNode.eq_def]
    simp [hdir, hi]
  | case6 nl nch nd nc rest i full hp hdir hi =>
    rcases hd with h | h <;> simp [h] at hdir
  | case7 nl nch nd nc rest i full hp hdir hi =>
    rcases hd with h | h <;> simp [h] at hdir
  | case8 nl nch nd nc rest i full hdir =>
    rcases hd with h | h <;> simp [h] at hdir
  | case9 nl nch nd nc rest i full hp hdir hnp =>
    rcases hd with h | h <;> simp [h] at hdir
  | case10 nid nl nd nc rest i full hp hne ihr =>
    intro hinv
    have hrest : rest = full.drop (i + 1) := by
      have h1 := List.drop_drop 1 i full
      rw [← hinv] at h1
      simpa using h1
    have hih := ihr hrest
    rw [findAndMoveNode.eq_def]
    simpa [hne] using hih
  | case11 nid nl nd nc rest i full hp hne cs csAfter heq ihc =>
    intro hinv
    have hcs := ihc rfl
    rw [heq] at hcs
    have hget : full.get? i = some ⟨nid, nl, some cs, nd, nc⟩ := by
      have h1 := List.get?_drop full i 0
      rw [← hinv] at h1
      simpa using h1.symm
    rw [findAndMoveNode.eq_def]
    simp only [hne, if_neg hne, heq]
    subst hcs
    exact set_get_self full i _ hget
  | case12 nid nl nd nc rest i full hp hne cs nodes csAfter req heq ihc =>
    intro hinv
    have hcs := ihc rfl
    rw [heq] at hcs
    have hget : full.get? i = some ⟨nid, nl, some cs, nd, nc⟩ := by
      have h1 := List.get?_drop full i 0
      rw [← hinv] at h1
      simpa using h1.symm
    rcases hcs with ⟨hafter, hreq⟩
    subst hafter
    subst hreq
    rw [findAndMoveNode.eq_def]
    simp only [hne, if_neg hne, heq]
    exact set_get_self full i _ hget
  | case13 nid nl nd nc rest i full hp hne cs nodes listAfter req heq ihc ihr =>
    intro hinv
    have hrest : rest = full.drop (i + 1) := by
      have h1 := List.drop_drop 1 i full
      rw [← hinv] at h1
      simpa using h1
    have hih := ihr hrest
    rw [findAndMoveNode.eq_def]
    simpa [hne, heq] using hih

/-! ## Claim theorems: moveNode -/

/-- C3 counterexample: the call moveNode(forest, "b", indent) on the two
top-level leaves "a", "b" mutates the input forest — the previous sibling
"a" gains "b" as a child inside the input itself — so the input is not
structurally unchanged after the call, refuting the purity claim as
stated. -/
theorem moveNode_indent_mutates_input :
    (moveNode exPair "b" MoveDirection.indent).2 ≠ exPair := by
  intro h
  have h2 := congrArg totalSize h
  simp [moveNode, findAndMoveNode, indentInto, exPair, totalSize] at h2

/-- C3 (amended): moveNode with direction up or down (whether it moves,
no-ops, or raises on the nested return path) leaves the input forest
structurally unchanged; with indent or outdent the call can mutate the
input forest in place (the previous sibling's children list, respectively
the parent's sibling list), as the counterexample shows. -/
theorem moveNode_up_down_leaves_input (F : List TreeNode) (i : String)
    (d : MoveDirection)
    (hd : d = MoveDirection.up ∨ d = MoveDirection.down) :
    (moveNode F i d).2 = F := by
  have h := findAndMoveNode_updown_after i d hd F 0 F false (by simp)
  rcases hq : findAndMoveNode i d F 0 F false with ⟨nodes, mv, after, req⟩ | after
  · rw [hq] at h
    simp [moveNode, hq, h.1]
  · rw [hq] at h
    simp [moveNode, hq, h]

theorem moveNode_up_down_leaves_input_witness :
    (MoveDirection.up = MoveDirection.up ∨
      MoveDirection.up = MoveDirection.down) ∧
    (moveNode exPair "b" MoveDirection.up).2 = exPair :=
  ⟨Or.inl rfl,
    moveNode_up_down_leaves_input exPair "b" MoveDirection.up (Or.inl rfl)⟩

/-- C1 evaluation: on the spec's concrete forest, moveNode(forest, "1-1",
outdent) does not return the promoted forest — the successful recursive
return path evaluates the out-of-scope variable newNodes and raises a
ReferenceError (modelled as the error outcome), after having spliced
"1-1" into the top-level input array as a side effect (the input forest is
left mutated to roots "1" (still holding child "1-1"), "1-1", "2"). -/
theorem moveNode_outdent_scenario_raises :
    moveNode exForest "1-1" MoveDirection.outdent =
      (Except.error (), [⟨"1", "A", some [nodeA1], none, none⟩, nodeA1,
        ⟨"2", "B", none, none, none⟩]) := by
  simp [moveNode, findAndMoveNode, exForest, nodeA1, insertAt]

/-- C2 evaluation: moving the nested node "c" (second child of "a", so not
first among its siblings) up raises the ReferenceError of the recursive
return path instead of returning the reordered forest, so the up-then-down
round trip cannot be performed without an error for nested nodes. -/
theorem moveNode_up_nested_raises :
    moveNode exNested "c" MoveDirection.up = (Except.error (), exNested) := by
  simp [moveNode, findAndMoveNode, exNested, moveNodeInArray]
